import Mathlib

/-!
Verification of the UWB trilateration core: the closed-form solver, the
anchor-selection policies, the noise-injection model, the Monte-Carlo error
harnesses and the interactive anchor-set operations, embedded shallowly from
the Python sources in src/UWB_GUI.  Machine floats are modelled by an ordered
field (ℚ for the executable parts, ℝ where square roots occur).
-/

set_option maxHeartbeats 1000000

namespace UWB

/-! ## Definitions -/

/-- Shallow embedding of the function trilateration (identical in
UWB_error_test_boxplot.py, UWB_error_test_line.py and, up to returning a
tuple, trilateration_3anchors in uwb3anchorstest.py).  The Python
ValueError ("Anchors are aligned") raise is modelled by the Except error
channel; float arithmetic is modelled by an arbitrary linear ordered field. -/
def trilateration {K : Type} [LinearOrderedField K] [DecidableEq K]
    (p1 : K × K) (d1 : K) (p2 : K × K) (d2 : K) (p3 : K × K) (d3 : K) :
    Except String (K × K) :=
  let x1 := p1.1; let y1 := p1.2
  let x2 := p2.1; let y2 := p2.2
  let x3 := p3.1; let y3 := p3.2
  let A := 2 * (x2 - x1)
  let B := 2 * (y2 - y1)
  let C := d1 ^ 2 - d2 ^ 2 - x1 ^ 2 + x2 ^ 2 - y1 ^ 2 + y2 ^ 2
  let D := 2 * (x3 - x1)
  let E := 2 * (y3 - y1)
  let F := d1 ^ 2 - d3 ^ 2 - x1 ^ 2 + x3 ^ 2 - y1 ^ 2 + y3 ^ 2
  let denominator := A * E - B * D
  if denominator = 0 then Except.error ("Anchors are aligned")
  else Except.ok ((C * E - B * F) / denominator, (A * F - C * D) / denominator)

/-- Three points of the plane are collinear: some line a·x + b·y + c = 0 with
(a, b) ≠ (0, 0) passes through all of them. -/
def collinearPts {K : Type} [LinearOrderedField K] (p q r : K × K) : Prop :=
  ∃ a b c : K, (a ≠ 0 ∨ b ≠ 0) ∧
    a * p.1 + b * p.2 + c = 0 ∧
    a * q.1 + b * q.2 + c = 0 ∧
    a * r.1 + b * r.2 + c = 0

/-- Euclidean norm of the difference of two planar points, the model of
np.linalg.norm(p − q) on 2-vectors. -/
noncomputable def euclid (p q : ℝ × ℝ) : ℝ :=
  Real.sqrt ((p.1 - q.1) ^ 2 + (p.2 - q.2) ^ 2)

/-- The fixed anchors of UWB_error_test_boxplot.py and
UWB_error_test_line.py. -/
noncomputable def anchors : Fin 3 → ℝ × ℝ := fun k =>
  match k with
  | 0 => (-4.5, 0)
  | 1 => (-1.5, -3)
  | 2 => (1.5, 0)

/-- The fixed ground-truth object position of the error experiments. -/
noncomputable def true_pos : ℝ × ℝ := (0, 2)

/-- true_distances = [np.linalg.norm(true_pos - a) for a in anchors]. -/
noncomputable def true_distances : Fin 3 → ℝ := fun k => euclid true_pos (anchors k)

/-- The random draws consumed by one Monte-Carlo trial: the index chosen by
random.choice, the two distinct indices chosen by random.sample, and the
additive uniform samples.  The harness is parameterised by a stream of these,
making the randomness explicit and the trial loop reproducible. -/
structure TrialRand where
  idx : Fin 3
  pair : Fin 3 × Fin 3
  u : Fin 3 → ℝ

/-- Noise application of one trial, from simulate_error (boxplot) and the
inner loop of simulate_errors (line): case 1 perturbs the single randomly
chosen index, case 2 perturbs the two distinct sampled indices, case 3
perturbs all three distances; any other case leaves the copy of the true
distances unchanged.  The value of each uniform draw is supplied by r; its
range (one-sided [0, magnitude] or symmetric [−magnitude, magnitude]) is a
distributional fact stated as a hypothesis where needed. -/
noncomputable def injectNoise (case : Nat) (d : Fin 3 → ℝ) (r : TrialRand) :
    Fin 3 → ℝ :=
  if case = 1 then fun k => if k = r.idx then d k + r.u r.idx else d k
  else if case = 2 then fun k => if k = r.pair.1 ∨ k = r.pair.2 then d k + r.u k else d k
  else if case = 3 then fun k => d k + r.u k
  else d

/-- One Monte-Carlo trial: perturb the true distances, run the solver on the
three fixed anchors, and on success return the position error
np.linalg.norm(pos − true_pos); on the degeneracy ValueError the trial is
skipped (none). -/
noncomputable def trialError (case : Nat) (r : TrialRand) : Option ℝ :=
  match trilateration (anchors 0) (injectNoise case true_distances r 0)
      (anchors 1) (injectNoise case true_distances r 1)
      (anchors 2) (injectNoise case true_distances r 2) with
  | Except.ok p => some (euclid p true_pos)
  | Except.error _ => none

/-- simulate_error of UWB_error_test_boxplot.py: run the given number of
trials and collect, in trial order, the errors of the successful ones;
failed (degenerate) trials are skipped and the loop continues. -/
noncomputable def simulate_error (case : Nat) (trials : Nat)
    (rand : Nat → TrialRand) : List ℝ :=
  (List.range trials).filterMap (fun t => trialError case (rand t))

/-- Helper for simulate_errors: walk the noise levels carrying the level
index used to address the random stream.  Each level contributes
np.mean(errors) when errors is non-empty and the np.nan sentinel (modelled
by none) otherwise, exactly as
mean_errors.append(np.mean(errors) if errors else np.nan). -/
noncomputable def simulateErrorsAux (case : Nat) (trials : Nat)
    (rand : Nat → Nat → TrialRand) : List ℝ → Nat → List (Option ℝ)
  | [], _ => []
  | _ :: rest, li =>
    (if (simulate_error case trials (rand li)).isEmpty then none
     else some ((simulate_error case trials (rand li)).sum /
       ((simulate_error case trials (rand li)).length : ℝ))) ::
    simulateErrorsAux case trials rand rest (li + 1)

/-- simulate_errors of UWB_error_test_line.py: the mean-per-level sweep.  The
noise magnitude of a level only scales the distribution of the uniform draws,
which the embedding supplies through the random stream, so the level value
itself does not appear in the data path. -/
noncomputable def simulate_errors (noise_levels : List ℝ) (case : Nat)
    (trials : Nat) (rand : Nat → Nat → TrialRand) : List (Option ℝ) :=
  simulateErrorsAux case trials rand noise_levels 0

/-- Distance of anchor index i, distances[i] (0 when out of range). -/
def distAt (d : List ℚ) (i : Nat) : ℚ := d.getD i 0

/-- The comparison used by sorted(range(len(distances)), key=...): compare
the distances of two anchor indices. -/
def idxLe (d : List ℚ) (i j : Nat) : Bool := decide (distAt d i ≤ distAt d j)

/-- sorted(range(len(distances)), key=lambda i: distances[i]) from
update_position in uwb3anchorstest.py; Python's sorted is a stable sort,
modelled by the stable List.mergeSort. -/
def sortedIndices (d : List ℚ) : List Nat :=
  (List.range d.length).mergeSort (idxLe d)

/-- d_index = sorted(...)[:3]: the closest-3-overall selection. -/
def closest3 (d : List ℚ) : List Nat := (sortedIndices d).take 3

/-- Strict ordering by ascending distance with ties broken by the original
index: the order the closest-3 selection is claimed to produce. -/
def lexLt (d : List ℚ) (i j : Nat) : Prop :=
  distAt d i < distAt d j ∨ (distAt d i = distAt d j ∧ i < j)

instance lexLt_decidable (d : List ℚ) (i j : Nat) : Decidable (lexLt d i j) :=
  inferInstanceAs (Decidable (distAt d i < distAt d j ∨
    (distAt d i = distAt d j ∧ i < j)))

/-- Comparison of (index, distance) pairs by distance, the key of
sorted(within_10m, key=lambda x: x[1]). -/
def pairLe : Nat × ℚ → Nat × ℚ → Bool := fun p q => decide (p.2 ≤ q.2)

/-- within_10m = [(i, d) for i, d in enumerate(distances) if d <= R], from
update_circles in UWB_movable_position_GUI.py and auto_sinus.py (with
R = 10). -/
def withinRange (d : List ℚ) (R : ℚ) : List (Nat × ℚ) :=
  d.enum.filter (fun p => decide (p.2 ≤ R))

/-- closest_valid = sorted(within_10m, key=lambda x: x[1])[:3]. -/
def closest_valid (d : List ℚ) (R : ℚ) : List (Nat × ℚ) :=
  ((withinRange d R).mergeSort pairLe).take 3

/-- count = len(closest_valid): the number of qualifying anchors the
range-gated selection reports (capped at 3). -/
def qualifyingCount (d : List ℚ) (R : ℚ) : Nat := (closest_valid d R).length

/-- The confidence tier chosen from the reported count in
UWB_movable_position_GUI.py: 3 → green, 2 → yellow, 1 → red, 0 → no
circles. -/
def circleColor (count : Nat) : Option String :=
  if count = 3 then some ("green")
  else if count = 2 then some ("yellow")
  else if count = 1 then some ("red")
  else none

/-- The mutable anchor-set state of uwb3anchorstest.py: the global lists
anchors and distances. -/
structure AnchorState where
  anchors : List (ℚ × ℚ)
  distances : List ℚ

/-- The initial state: anchors = [[6, 7.5], [9, -3], [5, 7.5]],
distances = [7.0, 5.0, 8.0]. -/
def initState : AnchorState :=
  ⟨[(6, 7.5), (9, -3), (5, 7.5)], [7, 5, 8]⟩

/-- add_anchor: refuse when 10 anchors exist already, otherwise append a new
anchor (random coordinates modelled as parameters) and the default distance
5.0. -/
def add_anchor (x y : ℚ) (s : AnchorState) : AnchorState :=
  if 10 ≤ s.anchors.length then s
  else ⟨s.anchors ++ [(x, y)], s.distances ++ [5]⟩

/-- remove_anchor: refuse when 3 or fewer anchors remain, otherwise pop the
last anchor and its distance. -/
def remove_anchor (s : AnchorState) : AnchorState :=
  if s.anchors.length ≤ 3 then s
  else ⟨s.anchors.dropLast, s.distances.dropLast⟩

/-- on_motion: when an anchor is selected, move it to the event coordinates;
the distances list is untouched. -/
def on_motion (sel : Option Nat) (x y : ℚ) (s : AnchorState) : AnchorState :=
  match sel with
  | none => s
  | some i => ⟨s.anchors.set i (x, y), s.distances⟩

/-- The anchor-set operations reachable from the GUI buttons and mouse
drags. -/
inductive AnchorOp where
  | add (x y : ℚ)
  | remove
  | motion (sel : Option Nat) (x y : ℚ)

/-- Apply one GUI operation to the anchor-set state. -/
def applyOp (s : AnchorState) : AnchorOp → AnchorState
  | AnchorOp.add x y => add_anchor x y s
  | AnchorOp.remove => remove_anchor s
  | AnchorOp.motion sel x y => on_motion sel x y s

/-- Run a sequence of GUI operations from a state. -/
def runOps (s : AnchorState) (ops : List AnchorOp) : AnchorState :=
  ops.foldl applyOp s

/-- The anchor-manager invariant: the anchor and distance lists stay in
lock-step and hold between 3 and 10 entries. -/
def AnchorInv (s : AnchorState) : Prop :=
  s.anchors.length = s.distances.length ∧
  3 ≤ s.anchors.length ∧ s.anchors.length ≤ 10

/-! ## Helper lemmas -/

/-- The cross-product test for collinearity: p, q, r lie on a common line
exactly when (q−p) × (r−p) vanishes. -/
theorem collinearPts_iff_cross {K : Type} [LinearOrderedField K] (p q r : K × K) :
    collinearPts p q r ↔
      (q.1 - p.1) * (r.2 - p.2) - (q.2 - p.2) * (r.1 - p.1) = 0 := by
  constructor
  · rintro ⟨a, b, c, hab, h1, h2, h3⟩
    have e1 : a * (q.1 - p.1) + b * (q.2 - p.2) = 0 := by linear_combination h2 - h1
    have e2 : a * (r.1 - p.1) + b * (r.2 - p.2) = 0 := by linear_combination h3 - h1
    rcases hab with ha | hb
    · have : a * ((q.1 - p.1) * (r.2 - p.2) - (q.2 - p.2) * (r.1 - p.1)) = 0 := by
        linear_combination (r.2 - p.2) * e1 - (q.2 - p.2) * e2
      exact (mul_eq_zero.mp this).resolve_left ha
    · have : b * ((q.1 - p.1) * (r.2 - p.2) - (q.2 - p.2) * (r.1 - p.1)) = 0 := by
        linear_combination (q.1 - p.1) * e2 - (r.1 - p.1) * e1
      exact (mul_eq_zero.mp this).resolve_left hb
  · intro hcross
    by_cases hq : q.1 = p.1 ∧ q.2 = p.2
    · by_cases hr : r.1 = p.1 ∧ r.2 = p.2
      · exact ⟨1, 0, -p.1, Or.inl one_ne_zero, by ring, by rw [hq.1, hq.2]; ring,
          by rw [hr.1, hr.2]; ring⟩
      · refine ⟨r.2 - p.2, -(r.1 - p.1), -((r.2 - p.2) * p.1 - (r.1 - p.1) * p.2), ?_,
          by ring, ?_, by ring⟩
        · rcases not_and_or.mp hr with h | h
          · exact Or.inr (by simpa using sub_ne_zero.mpr (Ne.symm h))
          · exact Or.inl (sub_ne_zero.mpr h)
        · rw [hq.1, hq.2]; ring
    · refine ⟨q.2 - p.2, -(q.1 - p.1), -((q.2 - p.2) * p.1 - (q.1 - p.1) * p.2), ?_,
        by ring, by ring, by linear_combination -hcross⟩
      rcases not_and_or.mp hq with h | h
      · exact Or.inr (by simpa using sub_ne_zero.mpr (Ne.symm h))
      · exact Or.inl (sub_ne_zero.mpr h)

/-- The solver denominator A·E − B·D is four times the collinearity cross
product. -/
theorem denominator_eq_cross {K : Type} [LinearOrderedField K] (p1 p2 p3 : K × K) :
    2 * (p2.1 - p1.1) * (2 * (p3.2 - p1.2)) - 2 * (p2.2 - p1.2) * (2 * (p3.1 - p1.1)) =
      4 * ((p2.1 - p1.1) * (p3.2 - p1.2) - (p2.2 - p1.2) * (p3.1 - p1.1)) := by
  ring

/-- Exactness of the closed-form solver: with exact Euclidean distances to
non-collinear anchors, the solver recovers the ground-truth point. -/
theorem trilateration_exact_distances (p1 p2 p3 g : ℝ × ℝ)
    (h : ¬ collinearPts p1 p2 p3) :
    trilateration p1 (euclid g p1) p2 (euclid g p2) p3 (euclid g p3) =
      Except.ok g := by
  have hsq : ∀ p : ℝ × ℝ, euclid g p ^ 2 = (g.1 - p.1) ^ 2 + (g.2 - p.2) ^ 2 :=
    fun p => Real.sq_sqrt (by positivity)
  have hcross : (p2.1 - p1.1) * (p3.2 - p1.2) - (p2.2 - p1.2) * (p3.1 - p1.1) ≠ 0 := by
    intro hc; exact h ((collinearPts_iff_cross _ _ _).mpr hc)
  have hden : 2 * (p2.1 - p1.1) * (2 * (p3.2 - p1.2)) -
      2 * (p2.2 - p1.2) * (2 * (p3.1 - p1.1)) ≠ 0 := by
    rw [denominator_eq_cross]; exact mul_ne_zero (by norm_num) hcross
  have h1 := hsq p1
  have h2 := hsq p2
  have h3 := hsq p3
  simp only [trilateration, if_neg hden]
  refine congrArg Except.ok (Prod.ext ?_ ?_)
  · rw [div_eq_iff hden]
    linear_combination (2 * (p3.2 - p1.2) - 2 * (p2.2 - p1.2)) * h1 -
      (2 * (p3.2 - p1.2)) * h2 + (2 * (p2.2 - p1.2)) * h3
  · rw [div_eq_iff hden]
    linear_combination (2 * (p2.1 - p1.1) - 2 * (p3.1 - p1.1)) * h1 +
      (2 * (p3.1 - p1.1)) * h2 - (2 * (p2.1 - p1.1)) * h3

/-- The position error of a trial is a square root, hence non-negative. -/
theorem euclid_nonneg (p q : ℝ × ℝ) : 0 ≤ euclid p q := Real.sqrt_nonneg _

/-- filterMap keeps exactly the images of the elements on which f succeeds,
in order. -/
theorem filterMap_eq_map_filter {α β : Type} (f : α → Option β) (d0 : β)
    (l : List α) :
    l.filterMap f =
      (l.filter (fun a => (f a).isSome)).map (fun a => (f a).getD d0) := by
  induction l with
  | nil => rfl
  | cons a t ih =>
    cases h : f a <;>
      simp [List.filterMap_cons, List.filter_cons, h, ih]

/-- Success/failure accounting of filterMap: successes plus failures cover
every element. -/
theorem length_filterMap_add_failures {α β : Type} (f : α → Option β)
    (l : List α) :
    (l.filterMap f).length + (l.filter (fun a => (f a).isNone)).length =
      l.length := by
  induction l with
  | nil => rfl
  | cons a t ih =>
    cases h : f a <;>
      simp [List.filterMap_cons, List.filter_cons, h] <;> omega

/-- Structure of the sweep helper: one result per remaining level, each
level reducing its own trial run to a mean or to the undefined sentinel. -/
theorem simulateErrorsAux_spec (case trials : Nat) (rand : Nat → Nat → TrialRand)
    (ls : List ℝ) :
    ∀ li : Nat,
      (simulateErrorsAux case trials rand ls li).length = ls.length ∧
      ∀ j, j < ls.length →
        (simulateErrorsAux case trials rand ls li)[j]? =
          some (if (simulate_error case trials (rand (li + j))).isEmpty then none
            else some ((simulate_error case trials (rand (li + j))).sum /
              ((simulate_error case trials (rand (li + j))).length : ℝ))) := by
  induction ls with
  | nil =>
    intro li
    exact ⟨rfl, fun j hj => by simp at hj⟩
  | cons noise rest ih =>
    intro li
    obtain ⟨ihlen, ihget⟩ := ih (li + 1)
    constructor
    · simpa [simulateErrorsAux] using ihlen
    · intro j hj
      cases j with
      | zero => simp [simulateErrorsAux]
      | succ j' =>
        have hj' : j' < rest.length := by
          simpa [Nat.succ_lt_succ_iff] using hj
        have hidx : li + 1 + j' = li + (j' + 1) := by omega
        have := ihget j' hj'
        rw [hidx] at this
        simpa [simulateErrorsAux] using this

/-- An increasing pair of numbers below n forms a sublist of range n. -/
theorem pair_sublist_range {a b n : Nat} (hab : a < b) (hbn : b < n) :
    ([a, b] : List Nat).Sublist (List.range n) := by
  induction n with
  | zero => omega
  | succ m ih =>
    rw [List.range_succ]
    rcases Nat.lt_or_ge b m with h | h
    · exact (ih h).trans (List.sublist_append_left _ _)
    · have hbm : b = m := by omega
      subst hbm
      have ha : ([a] : List Nat).Sublist (List.range b) := by
        simpa using List.singleton_sublist.mpr (List.mem_range.mpr hab)
      have h2 := List.Sublist.append ha (List.Sublist.refl [b])
      simpa using h2

/-- In a duplicate-free list, two elements cannot appear in both orders. -/
theorem nodup_pair_of_sublists {l : List Nat} {a b : Nat} (hnd : l.Nodup)
    (h1 : ([a, b] : List Nat).Sublist l) (h2 : ([b, a] : List Nat).Sublist l) : a = b := by
  induction l with
  | nil => cases h1
  | cons x t ih =>
    cases h1 with
    | cons _ h1' =>
      cases h2 with
      | cons _ h2' => exact ih (List.nodup_cons.mp hnd).2 h1' h2'
      | cons₂ _ h2' =>
        have hb : b ∈ t := h1'.subset (by simp)
        exact absurd hb (List.nodup_cons.mp hnd).1
    | cons₂ _ h1' =>
      cases h2 with
      | cons _ h2' =>
        have ha : a ∈ t := h2'.subset (by simp)
        exact absurd ha (List.nodup_cons.mp hnd).1
      | cons₂ _ h2' => rfl

/-- The index comparison is transitive. -/
theorem idxLe_trans (d : List ℚ) : ∀ a b c : Nat,
    idxLe d a b → idxLe d b c → idxLe d a c := by
  intro a b c hab hbc
  simp only [idxLe, decide_eq_true_eq] at *
  exact le_trans hab hbc

/-- The index comparison is total. -/
theorem idxLe_total (d : List ℚ) : ∀ a b : Nat, idxLe d a b || idxLe d b a := by
  intro a b
  simp only [idxLe]
  rcases le_total (distAt d a) (distAt d b) with h | h <;> simp [h]

/-- Stability of the embedded sort: the index list produced by
sorted(range(n), key=distances) is ordered by ascending distance with ties
broken by the original index order. -/
theorem sortedIndices_pairwise_lexLt (d : List ℚ) :
    (sortedIndices d).Pairwise (lexLt d) := by
  have hnd : (sortedIndices d).Nodup :=
    ((List.mergeSort_perm (List.range d.length) (idxLe d)).nodup_iff).mpr
      (List.nodup_range _)
  have hsorted : (sortedIndices d).Pairwise (fun i j => idxLe d i j = true) :=
    List.sorted_mergeSort (idxLe_trans d) (idxLe_total d) (List.range d.length)
  refine List.pairwise_iff_forall_sublist.mpr ?_
  intro a b hsub
  have hle : distAt d a ≤ distAt d b := by
    have h2 := List.pairwise_iff_forall_sublist.mp hsorted hsub
    simpa [idxLe] using h2
  have hne : a ≠ b := by
    intro h
    subst h
    have hp := List.Pairwise.sublist hsub hnd
    simp at hp
  rcases lt_or_eq_of_le hle with hlt | heq
  · exact Or.inl hlt
  · refine Or.inr ⟨heq, ?_⟩
    by_contra hnot
    have hba : b < a := by omega
    have han : a < d.length := by
      have ha : a ∈ List.range d.length :=
        (List.mergeSort_perm (List.range d.length) (idxLe d)).subset
          (hsub.subset (by simp))
      exact List.mem_range.mp ha
    have hsubr : ([b, a] : List Nat).Sublist (List.range d.length) := pair_sublist_range hba han
    have hpairle : List.Pairwise (fun i j => idxLe d i j = true) [b, a] := by
      refine List.pairwise_cons.mpr ⟨?_, List.pairwise_singleton _ _⟩
      intro y hy
      rw [List.mem_singleton.mp hy]
      simp [idxLe, le_of_eq heq.symm]
    have hba2 : ([b, a] : List Nat).Sublist (sortedIndices d) :=
      List.sublist_mergeSort (idxLe_trans d) (idxLe_total d) hpairle hsubr
    exact hne (nodup_pair_of_sublists hnd hsub hba2)

/-- lexLt is antisymmetric, so sorted lists are unique per permutation
class. -/
theorem lexLt_antisymm (d : List ℚ) : ∀ a b : Nat,
    lexLt d a b → lexLt d b a → a = b := by
  intro a b hab hba
  rcases hab with h | ⟨he, hi⟩ <;> rcases hba with h2 | ⟨he2, hi2⟩
  · exact absurd h2 (not_lt_of_lt h)
  · exact absurd h (by rw [he2]; exact lt_irrefl _)
  · exact absurd h2 (by rw [he]; exact lt_irrefl _)
  · omega

/-- The pair comparison of the range-gated sort is transitive. -/
theorem pairLe_trans : ∀ p q r : Nat × ℚ, pairLe p q → pairLe q r → pairLe p r := by
  intro p q r hpq hqr
  simp only [pairLe, decide_eq_true_eq] at *
  exact le_trans hpq hqr

/-- The pair comparison of the range-gated sort is total. -/
theorem pairLe_total : ∀ p q : Nat × ℚ, pairLe p q || pairLe q p := by
  intro p q
  simp only [pairLe]
  rcases le_total p.2 q.2 with h | h <;> simp [h]

/-- add_anchor preserves the anchor-manager invariant. -/
theorem add_anchor_inv (x y : ℚ) (s : AnchorState) (hs : AnchorInv s) :
    AnchorInv (add_anchor x y s) := by
  rcases hs with ⟨h1, h2, h3⟩
  unfold add_anchor
  split_ifs with h10
  · exact ⟨h1, h2, h3⟩
  · refine ⟨by simp [h1], ?_, ?_⟩ <;> simp <;> omega

/-- remove_anchor preserves the anchor-manager invariant. -/
theorem remove_anchor_inv (s : AnchorState) (hs : AnchorInv s) :
    AnchorInv (remove_anchor s) := by
  rcases hs with ⟨h1, h2, h3⟩
  unfold remove_anchor
  split_ifs with hle
  · exact ⟨h1, h2, h3⟩
  · refine ⟨?_, ?_, ?_⟩ <;> simp [List.length_dropLast, h1] <;> omega

/-- on_motion preserves the anchor-manager invariant. -/
theorem on_motion_inv (sel : Option Nat) (x y : ℚ) (s : AnchorState)
    (hs : AnchorInv s) : AnchorInv (on_motion sel x y s) := by
  rcases hs with ⟨h1, h2, h3⟩
  cases sel with
  | none => exact ⟨h1, h2, h3⟩
  | some i => exact ⟨by simp [on_motion, h1], by simp [on_motion]; omega,
      by simp [on_motion]; omega⟩

/-- Every reachable GUI operation preserves the invariant. -/
theorem applyOp_inv (s : AnchorState) (op : AnchorOp) (hs : AnchorInv s) :
    AnchorInv (applyOp s op) := by
  cases op with
  | add x y => exact add_anchor_inv x y s hs
  | remove => exact remove_anchor_inv s hs
  | motion sel x y => exact on_motion_inv sel x y s hs

/-- Any sequence of GUI operations preserves the invariant. -/
theorem runOps_inv (ops : List AnchorOp) : ∀ s : AnchorState,
    AnchorInv s → AnchorInv (runOps s ops) := by
  induction ops with
  | nil => intro s hs; exact hs
  | cons op rest ih =>
    intro s hs
    exact ih (applyOp s op) (applyOp_inv s op hs)

/-! ## Claims -/

/-- Claim C1: for all anchors p1, p2, p3 and distances d1, d2, d3 the solver
raises the degeneracy error exactly when the denominator A·E − B·D vanishes,
which happens exactly when the three anchors are collinear (hence
independently of the distances); otherwise it returns exactly the Cramer
coordinates ((C·E − B·F)/denom, (A·F − C·D)/denom), never an undefined
value. -/
theorem trilateration_degenerate_iff_collinear {K : Type} [LinearOrderedField K]
    [DecidableEq K] (p1 p2 p3 : K × K) :
    (∀ d1 d2 d3 : K,
      trilateration p1 d1 p2 d2 p3 d3 = Except.error ("Anchors are aligned") ↔
        collinearPts p1 p2 p3) ∧
    (∀ d1 d2 d3 : K, ¬ collinearPts p1 p2 p3 →
      trilateration p1 d1 p2 d2 p3 d3 = Except.ok
        (((d1 ^ 2 - d2 ^ 2 - p1.1 ^ 2 + p2.1 ^ 2 - p1.2 ^ 2 + p2.2 ^ 2) * (2 * (p3.2 - p1.2)) -
            2 * (p2.2 - p1.2) * (d1 ^ 2 - d3 ^ 2 - p1.1 ^ 2 + p3.1 ^ 2 - p1.2 ^ 2 + p3.2 ^ 2)) /
          (2 * (p2.1 - p1.1) * (2 * (p3.2 - p1.2)) - 2 * (p2.2 - p1.2) * (2 * (p3.1 - p1.1))),
         (2 * (p2.1 - p1.1) * (d1 ^ 2 - d3 ^ 2 - p1.1 ^ 2 + p3.1 ^ 2 - p1.2 ^ 2 + p3.2 ^ 2) -
            (d1 ^ 2 - d2 ^ 2 - p1.1 ^ 2 + p2.1 ^ 2 - p1.2 ^ 2 + p2.2 ^ 2) * (2 * (p3.1 - p1.1))) /
          (2 * (p2.1 - p1.1) * (2 * (p3.2 - p1.2)) - 2 * (p2.2 - p1.2) * (2 * (p3.1 - p1.1))))) := by
  have hiff : (2 * (p2.1 - p1.1) * (2 * (p3.2 - p1.2)) -
      2 * (p2.2 - p1.2) * (2 * (p3.1 - p1.1)) = 0) ↔ collinearPts p1 p2 p3 := by
    rw [collinearPts_iff_cross, denominator_eq_cross]
    constructor
    · intro h
      have h4 : (4 : K) ≠ 0 := by norm_num
      exact (mul_eq_zero.mp h).resolve_left h4
    · intro h; rw [h, mul_zero]
  constructor
  · intro d1 d2 d3
    by_cases hden : 2 * (p2.1 - p1.1) * (2 * (p3.2 - p1.2)) -
        2 * (p2.2 - p1.2) * (2 * (p3.1 - p1.1)) = 0
    · simp only [trilateration, if_pos hden]
      simpa using hiff.mp hden
    · simp only [trilateration, if_neg hden]
      constructor
      · intro h; exact absurd h (by simp)
      · intro h; exact absurd (hiff.mpr h) hden
  · intro d1 d2 d3 hncol
    have hden : ¬ (2 * (p2.1 - p1.1) * (2 * (p3.2 - p1.2)) -
        2 * (p2.2 - p1.2) * (2 * (p3.1 - p1.1)) = 0) := fun h => hncol (hiff.mp h)
    simp only [trilateration, if_neg hden]

/-- Witness for C1: at the non-collinear anchors (0,0), (1,0), (0,1) with unit
distances the solver returns the Cramer solution (1/2, 1/2). -/
theorem trilateration_degenerate_iff_collinear_witness :
    ¬ collinearPts ((0 : ℚ), 0) ((1 : ℚ), 0) ((0 : ℚ), 1) ∧
    trilateration ((0 : ℚ), 0) 1 ((1 : ℚ), 0) 1 ((0 : ℚ), 1) 1 =
      Except.ok (1 / 2, 1 / 2) := by
  have hnc : ¬ collinearPts ((0 : ℚ), 0) ((1 : ℚ), 0) ((0 : ℚ), 1) := by
    rw [collinearPts_iff_cross]; norm_num
  refine ⟨hnc, ?_⟩
  have h := (trilateration_degenerate_iff_collinear
    ((0 : ℚ), 0) ((1 : ℚ), 0) ((0 : ℚ), 1)).2 1 1 1 hnc
  rw [h]; norm_num

/-- Counterexample for C9: a negative distance is not rejected; the solver
happily computes a numeric position from d1 = −5. -/
theorem trilateration_accepts_negative_distance :
    (-5 : ℚ) < 0 ∧
    trilateration ((0 : ℚ), 0) (-5) ((1 : ℚ), 0) 1 ((0 : ℚ), 1) 1 =
      Except.ok (25 / 2, 25 / 2) := by
  refine ⟨by norm_num, ?_⟩
  norm_num [trilateration]

/-- Amended C9: the solver performs no input validation at all.  Its only
error value is the degeneracy message, and for non-collinear anchors it
returns a numeric result for every distance triple, including negative
distances; no InvalidInputError exists. -/
theorem trilateration_no_input_validation {K : Type} [LinearOrderedField K]
    [DecidableEq K] (p1 p2 p3 : K × K) (d1 d2 d3 : K) :
    (∀ e, trilateration p1 d1 p2 d2 p3 d3 = Except.error e →
      e = "Anchors are aligned") ∧
    (¬ collinearPts p1 p2 p3 →
      ∃ q, trilateration p1 d1 p2 d2 p3 d3 = Except.ok q) := by
  constructor
  · intro e he
    by_cases hden : 2 * (p2.1 - p1.1) * (2 * (p3.2 - p1.2)) -
        2 * (p2.2 - p1.2) * (2 * (p3.1 - p1.1)) = 0
    · simp only [trilateration, if_pos hden] at he
      exact (Except.error.inj he).symm
    · simp only [trilateration, if_neg hden] at he
      exact absurd he (by simp)
  · intro hncol
    have hden : ¬ (2 * (p2.1 - p1.1) * (2 * (p3.2 - p1.2)) -
        2 * (p2.2 - p1.2) * (2 * (p3.1 - p1.1)) = 0) := by
      intro h
      apply hncol
      rw [collinearPts_iff_cross]
      have h4 : (4 : K) ≠ 0 := by norm_num
      have := denominator_eq_cross p1 p2 p3 ▸ h
      exact (mul_eq_zero.mp this).resolve_left h4
    refine ⟨(((d1 ^ 2 - d2 ^ 2 - p1.1 ^ 2 + p2.1 ^ 2 - p1.2 ^ 2 + p2.2 ^ 2) * (2 * (p3.2 - p1.2)) -
        2 * (p2.2 - p1.2) * (d1 ^ 2 - d3 ^ 2 - p1.1 ^ 2 + p3.1 ^ 2 - p1.2 ^ 2 + p3.2 ^ 2)) /
        (2 * (p2.1 - p1.1) * (2 * (p3.2 - p1.2)) - 2 * (p2.2 - p1.2) * (2 * (p3.1 - p1.1))),
      (2 * (p2.1 - p1.1) * (d1 ^ 2 - d3 ^ 2 - p1.1 ^ 2 + p3.1 ^ 2 - p1.2 ^ 2 + p3.2 ^ 2) -
        (d1 ^ 2 - d2 ^ 2 - p1.1 ^ 2 + p2.1 ^ 2 - p1.2 ^ 2 + p2.2 ^ 2) * (2 * (p3.1 - p1.1))) /
        (2 * (p2.1 - p1.1) * (2 * (p3.2 - p1.2)) - 2 * (p2.2 - p1.2) * (2 * (p3.1 - p1.1)))), ?_⟩
    simp only [trilateration, if_neg hden]

/-- Witness for the amended C9: with a negative first distance and
non-collinear anchors the solver still returns some numeric position. -/
theorem trilateration_no_input_validation_witness :
    ∃ q, trilateration ((0 : ℚ), 0) (-5) ((1 : ℚ), 0) 1 ((0 : ℚ), 1) 1 =
      Except.ok q := by
  have hnc : ¬ collinearPts ((0 : ℚ), 0) ((1 : ℚ), 0) ((0 : ℚ), 1) := by
    rw [collinearPts_iff_cross]; norm_num
  exact (trilateration_no_input_validation
    ((0 : ℚ), 0) ((1 : ℚ), 0) ((0 : ℚ), 1) (-5) 1 1).2 hnc

/-- Claim C2: round trip.  For any non-collinear anchors and any ground-truth
point g, solving with the exact Euclidean distances from g to the anchors
returns g exactly (and a fortiori within 1e-6). -/
theorem trilateration_roundtrip (p1 p2 p3 g : ℝ × ℝ)
    (h : ¬ collinearPts p1 p2 p3) :
    trilateration p1 (euclid g p1) p2 (euclid g p2) p3 (euclid g p3) =
      Except.ok g :=
  trilateration_exact_distances p1 p2 p3 g h

/-- Witness for C2: the end-to-end scenario of the spec, anchors
(−4.5,0), (−1.5,−3), (1.5,0) and ground truth (0,2): solving on the exact
distances returns (0,2). -/
theorem trilateration_roundtrip_witness :
    ¬ collinearPts ((-4.5 : ℝ), 0) ((-1.5 : ℝ), -3) ((1.5 : ℝ), 0) ∧
    trilateration
      ((-4.5 : ℝ), 0) (euclid ((0 : ℝ), 2) ((-4.5 : ℝ), 0))
      ((-1.5 : ℝ), -3) (euclid ((0 : ℝ), 2) ((-1.5 : ℝ), -3))
      ((1.5 : ℝ), 0) (euclid ((0 : ℝ), 2) ((1.5 : ℝ), 0)) =
      Except.ok ((0 : ℝ), 2) := by
  have hnc : ¬ collinearPts ((-4.5 : ℝ), 0) ((-1.5 : ℝ), -3) ((1.5 : ℝ), 0) := by
    rw [collinearPts_iff_cross]; norm_num
  exact ⟨hnc, trilateration_roundtrip _ _ _ _ hnc⟩

/-- Claim C4: the raw-collection harness never aborts on a degenerate trial:
it returns exactly the errors of the successful trials in trial order
(failures dropped), the successes and failures together account for all
trialCount trials, and every returned error is non-negative and is the
Euclidean norm of an estimate produced by the solver minus the ground
truth. -/
theorem simulate_error_collects_successes (case trials : Nat)
    (rand : Nat → TrialRand) :
    simulate_error case trials rand =
      ((List.range trials).filter
        (fun t => (trialError case (rand t)).isSome)).map
        (fun t => (trialError case (rand t)).getD 0) ∧
    (simulate_error case trials rand).length +
      ((List.range trials).filter
        (fun t => (trialError case (rand t)).isNone)).length = trials ∧
    ∀ e ∈ simulate_error case trials rand, 0 ≤ e ∧
      ∃ t, t < trials ∧ ∃ p,
        trilateration (anchors 0) (injectNoise case true_distances (rand t) 0)
          (anchors 1) (injectNoise case true_distances (rand t) 1)
          (anchors 2) (injectNoise case true_distances (rand t) 2) =
            Except.ok p ∧
        e = euclid p true_pos := by
  refine ⟨filterMap_eq_map_filter _ 0 _, ?_, ?_⟩
  · have := length_filterMap_add_failures
      (fun t => trialError case (rand t)) (List.range trials)
    simpa [simulate_error] using this
  · intro e he
    simp only [simulate_error] at he
    obtain ⟨t, htmem, hft⟩ := List.mem_filterMap.mp he
    have ht : t < trials := List.mem_range.mp htmem
    unfold trialError at hft
    cases htri : trilateration (anchors 0) (injectNoise case true_distances (rand t) 0)
        (anchors 1) (injectNoise case true_distances (rand t) 1)
        (anchors 2) (injectNoise case true_distances (rand t) 2) with
    | error s => rw [htri] at hft; simp at hft
    | ok p =>
      rw [htri] at hft
      have he2 : euclid p true_pos = e := by simpa using hft
      exact ⟨he2 ▸ euclid_nonneg p true_pos, t, ht, p, htri, he2.symm⟩

/-- Witness for C4: a one-trial noise-free run contains the error 0, which
the theorem certifies as non-negative. -/
theorem simulate_error_collects_successes_witness :
    ∃ e, e ∈ simulate_error 0 1 (fun _ => ⟨0, (0, 1), fun _ => 0⟩) ∧ 0 ≤ e := by
  have hnc : ¬ collinearPts (anchors 0) (anchors 1) (anchors 2) := by
    rw [collinearPts_iff_cross]
    simp only [anchors]
    norm_num
  have htri : trilateration (anchors 0) (true_distances 0)
      (anchors 1) (true_distances 1) (anchors 2) (true_distances 2) =
      Except.ok true_pos :=
    trilateration_exact_distances (anchors 0) (anchors 1) (anchors 2) true_pos hnc
  have hinj : injectNoise 0 true_distances ⟨0, (0, 1), fun _ => 0⟩ =
      true_distances := by
    simp [injectNoise]
  have hte : trialError 0 ⟨0, (0, 1), fun _ => 0⟩ =
      some (euclid true_pos true_pos) := by
    unfold trialError
    rw [hinj, htri]
  have h0 : euclid true_pos true_pos = 0 := by
    simp [euclid]
  have hse : simulate_error 0 1 (fun _ => ⟨0, (0, 1), fun _ => 0⟩) = [0] := by
    simp only [simulate_error, hte, h0]
    rfl
  have hmem : (0 : ℝ) ∈ simulate_error 0 1 (fun _ => ⟨0, (0, 1), fun _ => 0⟩) := by
    rw [hse]; exact List.mem_singleton.mpr rfl
  exact ⟨0, hmem,
    ((simulate_error_collects_successes 0 1
      (fun _ => ⟨0, (0, 1), fun _ => 0⟩)).2.2 0 hmem).1⟩

/-- Claim C3: the mean-per-level sweep returns exactly one result per noise
magnitude, in the order supplied; the result of a level is the mean of that
level's successful trial errors, and a level with no successful trial yields
the explicit undefined sentinel (np.nan, modelled by none), not zero and not
omitted. -/
theorem simulate_errors_sweep_complete (noise_levels : List ℝ) (case trials : Nat)
    (rand : Nat → Nat → TrialRand) :
    (simulate_errors noise_levels case trials rand).length =
      noise_levels.length ∧
    ∀ j, j < noise_levels.length →
      (simulate_errors noise_levels case trials rand)[j]? =
        some (if (simulate_error case trials (rand j)).isEmpty then none
          else some ((simulate_error case trials (rand j)).sum /
            ((simulate_error case trials (rand j)).length : ℝ))) := by
  obtain ⟨hlen, hget⟩ := simulateErrorsAux_spec case trials rand noise_levels 0
  refine ⟨hlen, fun j hj => ?_⟩
  have := hget j hj
  simpa using this

/-- Witness for C3: a two-level sweep with zero trials still returns two
results, and the first level (all of whose trials failed vacuously) carries
the undefined sentinel. -/
theorem simulate_errors_sweep_complete_witness :
    (simulate_errors [1, 2] 1 0 (fun _ _ => ⟨0, (0, 1), fun _ => 0⟩)).length = 2 ∧
    (simulate_errors [1, 2] 1 0 (fun _ _ => ⟨0, (0, 1), fun _ => 0⟩))[0]? =
      some none := by
  have h := simulate_errors_sweep_complete [1, 2] 1 0
    (fun _ _ => ⟨0, (0, 1), fun _ => 0⟩)
  refine ⟨by simpa using h.1, ?_⟩
  have h0 := h.2 0 (by norm_num)
  have hempty : simulate_error 1 0
      ((fun _ _ => (⟨0, (0, 1), fun _ => 0⟩ : TrialRand)) 0) = [] := by
    simp [simulate_error]
  rw [hempty] at h0
  simpa using h0

/-- Claim C8: the frame effect of noise injection.  In mode 1 exactly the one
chosen entry is perturbed, in mode 2 exactly the two distinct sampled entries
are perturbed, in mode 3 all three are; every unperturbed entry passes
through unchanged, and every perturbed entry differs from its input by an
additive sample within the configured bounds (one-sided [0, magnitude] or
symmetric [−magnitude, magnitude], according to lo and hi). -/
theorem injectNoise_frame (d : Fin 3 → ℝ) (r : TrialRand) (lo hi : ℝ)
    (hu : ∀ k, lo ≤ r.u k ∧ r.u k ≤ hi) (hpair : r.pair.1 ≠ r.pair.2) :
    (injectNoise 1 d r r.idx = d r.idx + r.u r.idx ∧
      lo ≤ r.u r.idx ∧ r.u r.idx ≤ hi ∧
      (∀ k, k ≠ r.idx → injectNoise 1 d r k = d k) ∧
      (Finset.univ.filter (fun k : Fin 3 => k = r.idx)).card = 1) ∧
    ((∀ k, k = r.pair.1 ∨ k = r.pair.2 →
        injectNoise 2 d r k = d k + r.u k ∧ lo ≤ r.u k ∧ r.u k ≤ hi) ∧
      (∀ k, k ≠ r.pair.1 → k ≠ r.pair.2 → injectNoise 2 d r k = d k) ∧
      (Finset.univ.filter
        (fun k : Fin 3 => k = r.pair.1 ∨ k = r.pair.2)).card = 2) ∧
    (∀ k, injectNoise 3 d r k = d k + r.u k ∧ lo ≤ r.u k ∧ r.u k ≤ hi) := by
  refine ⟨⟨?_, (hu r.idx).1, (hu r.idx).2, ?_, ?_⟩, ⟨?_, ?_, ?_⟩, ?_⟩
  · simp [injectNoise]
  · intro k hk; simp [injectNoise, hk]
  · simp [Finset.filter_eq']
  · intro k hk
    refine ⟨?_, (hu k).1, (hu k).2⟩
    rcases hk with h | h <;> simp [injectNoise, h]
  · intro k h1 h2; simp [injectNoise, h1, h2]
  · have hset : (Finset.univ.filter
        (fun k : Fin 3 => k = r.pair.1 ∨ k = r.pair.2)) =
        {r.pair.1, r.pair.2} := by
      ext k; simp
    rw [hset, Finset.card_pair hpair]
  · intro k; exact ⟨by simp [injectNoise], (hu k).1, (hu k).2⟩

/-- Witness for C8: with draws equal to 1 bounded by [0, 2], mode 1 perturbs
entry 0 of the constant vector 3 to 3 + 1, and mode 3 perturbs entry 2
likewise. -/
theorem injectNoise_frame_witness :
    injectNoise 1 (fun _ => (3 : ℝ)) ⟨0, (0, 1), fun _ => 1⟩ 0 = 3 + 1 ∧
    injectNoise 3 (fun _ => (3 : ℝ)) ⟨0, (0, 1), fun _ => 1⟩ 2 = 3 + 1 := by
  have h := injectNoise_frame (fun _ => (3 : ℝ)) ⟨0, (0, 1), fun _ => 1⟩ 0 2
    (by intro k; exact ⟨by norm_num, by norm_num⟩) (by decide)
  exact ⟨h.1.1, (h.2.2 2).1⟩

/-- Claim C5: closest-3-overall selection.  For at least 3 anchors the
selection returns exactly 3 indices, ordered by ascending distance with ties
broken by the original index order (stability of Python's sorted), every
selected index is in range, every selected index strictly precedes every
unselected one in that order (so the 3 smallest distances are selected), and
on distances [10, 3, 7, 1, 20] the selection is [3, 1, 2].  (Selection is a
pure function; the distance list is not mutated.) -/
theorem closest3_selects_three_smallest (d : List ℚ) (h3 : 3 ≤ d.length) :
    (closest3 d).length = 3 ∧
    (closest3 d).Pairwise (lexLt d) ∧
    (∀ i ∈ closest3 d, i < d.length) ∧
    (∀ i ∈ closest3 d, ∀ j, j < d.length → j ∉ closest3 d → lexLt d i j) ∧
    closest3 [10, 3, 7, 1, 20] = [3, 1, 2] := by
  have hlen : (sortedIndices d).length = d.length := by
    simp [sortedIndices]
  refine ⟨?_, ?_, ?_, ?_, ?_⟩
  · simp only [closest3, List.length_take, hlen]
    omega
  · exact List.Pairwise.sublist (List.take_sublist 3 _)
      (sortedIndices_pairwise_lexLt d)
  · intro i hi
    have h1 : i ∈ sortedIndices d := (List.take_sublist 3 _).subset hi
    have h2 : i ∈ List.range d.length :=
      (List.mergeSort_perm (List.range d.length) (idxLe d)).subset h1
    exact List.mem_range.mp h2
  · intro i hi j hj hjn
    have hsplit : closest3 d ++ (sortedIndices d).drop 3 = sortedIndices d :=
      List.take_append_drop 3 _
    have hpw := sortedIndices_pairwise_lexLt d
    rw [← hsplit] at hpw
    have hparts := (List.pairwise_append.mp hpw).2.2
    have hjmem : j ∈ sortedIndices d :=
      ((List.mergeSort_perm (List.range d.length) (idxLe d)).mem_iff).mpr
        (List.mem_range.mpr hj)
    rw [← hsplit] at hjmem
    rcases List.mem_append.mp hjmem with hc | hc
    · exact absurd hc hjn
    · exact hparts i hi j hc
  · haveI : IsAntisymm Nat (lexLt [10, 3, 7, 1, 20]) :=
      ⟨lexLt_antisymm [10, 3, 7, 1, 20]⟩
    have hperm1 : (sortedIndices [10, 3, 7, 1, 20]).Perm (List.range 5) :=
      List.mergeSort_perm _ _
    have hperm2 : ([3, 1, 2, 0, 4] : List Nat).Perm (List.range 5) := by decide
    have hsort2 : List.Pairwise (lexLt [10, 3, 7, 1, 20]) [3, 1, 2, 0, 4] := by
      decide
    have heq : sortedIndices [10, 3, 7, 1, 20] = [3, 1, 2, 0, 4] :=
      List.eq_of_perm_of_sorted (hperm1.trans hperm2.symm)
        (sortedIndices_pairwise_lexLt _) hsort2
    show (sortedIndices [10, 3, 7, 1, 20]).take 3 = [3, 1, 2]
    rw [heq]
    rfl

/-- Witness for C5: on the spec's example distances the selection has length
3 and equals [3, 1, 2], the indices of the distances 1, 3, 7 in that
order. -/
theorem closest3_selects_three_smallest_witness :
    (closest3 [10, 3, 7, 1, 20]).length = 3 ∧
    closest3 [10, 3, 7, 1, 20] = [3, 1, 2] := by
  have h := closest3_selects_three_smallest [10, 3, 7, 1, 20] (by decide)
  exact ⟨h.1, h.2.2.2.2⟩

/-- Claim C7: range-gated selection.  The qualifying set is exactly the
enumerated anchors with distance ≤ R; the selection reports
min(3, #qualifying) anchors, never more than 3; every selected pair
qualifies; the selection is sorted by ascending distance; every selected
distance is at most every unselected qualifying distance (so the closest
qualifying anchors are selected); and a usable triple (3 selected) is
emitted exactly when at least 3 anchors qualify. -/
theorem range_gated_selection_spec (d : List ℚ) (R : ℚ) :
    (∀ p : Nat × ℚ, p ∈ withinRange d R ↔ p ∈ d.enum ∧ p.2 ≤ R) ∧
    qualifyingCount d R = min 3 (withinRange d R).length ∧
    qualifyingCount d R ≤ 3 ∧
    (∀ p ∈ closest_valid d R, p ∈ withinRange d R) ∧
    (closest_valid d R).Pairwise (fun p q : Nat × ℚ => p.2 ≤ q.2) ∧
    (∀ p ∈ closest_valid d R, ∀ q ∈ withinRange d R,
      q ∉ closest_valid d R → p.2 ≤ q.2) ∧
    ((closest_valid d R).length = 3 ↔ 3 ≤ (withinRange d R).length) := by
  have hq : qualifyingCount d R = min 3 (withinRange d R).length := by
    simp [qualifyingCount, closest_valid, List.length_take]
  have hq2 : qualifyingCount d R = (closest_valid d R).length := rfl
  have hsorted : ((withinRange d R).mergeSort pairLe).Pairwise
      (fun p q : Nat × ℚ => pairLe p q = true) :=
    List.sorted_mergeSort pairLe_trans pairLe_total _
  refine ⟨?_, hq, by omega, ?_, ?_, ?_, by omega⟩
  · intro p
    simp [withinRange, List.mem_filter]
  · intro p hp
    have h1 : p ∈ (withinRange d R).mergeSort pairLe :=
      (List.take_sublist 3 _).subset hp
    exact ((List.mergeSort_perm (withinRange d R) pairLe).mem_iff).mp h1
  · have h1 := List.Pairwise.sublist (List.take_sublist 3 _) hsorted
    exact h1.imp (fun h => by simpa [pairLe] using h)
  · intro p hp q hqm hqn
    have hsplit : closest_valid d R ++
        ((withinRange d R).mergeSort pairLe).drop 3 =
        (withinRange d R).mergeSort pairLe := List.take_append_drop 3 _
    have hpw := hsorted
    rw [← hsplit] at hpw
    have hparts := (List.pairwise_append.mp hpw).2.2
    have hqm2 : q ∈ (withinRange d R).mergeSort pairLe :=
      ((List.mergeSort_perm (withinRange d R) pairLe).mem_iff).mpr hqm
    rw [← hsplit] at hqm2
    rcases List.mem_append.mp hqm2 with hc | hc
    · exact absurd hc hqn
    · have h2 := hparts p hp q hc
      simpa [pairLe] using h2

/-- Witness for C7: with distances [1, 2, 3, 4] and R = 10 the selected pair
(0, 1) qualifies and its distance is below that of the unselected qualifying
pair (3, 4). -/
theorem range_gated_selection_spec_witness :
    ((0 : Nat), (1 : ℚ)) ∈ withinRange [1, 2, 3, 4] 10 ∧
    ((1 : ℚ) ≤ (4 : ℚ)) := by
  have hw : withinRange [1, 2, 3, 4] 10 =
      [(0, 1), (1, 2), (2, 3), (3, 4)] := by decide
  have hsorted : List.Pairwise (fun p q : Nat × ℚ => pairLe p q = true)
      [(0, 1), (1, 2), (2, 3), (3, 4)] := by decide
  have hms : ([(0, 1), (1, 2), (2, 3), (3, 4)] : List (Nat × ℚ)).mergeSort
      pairLe = [(0, 1), (1, 2), (2, 3), (3, 4)] :=
    List.mergeSort_of_sorted hsorted
  have hcv : closest_valid [1, 2, 3, 4] 10 = [(0, 1), (1, 2), (2, 3)] := by
    unfold closest_valid
    rw [hw, hms]
    rfl
  have h := range_gated_selection_spec [1, 2, 3, 4] 10
  constructor
  · exact h.2.2.2.1 (0, 1) (by rw [hcv]; simp)
  · exact h.2.2.2.2.2.1 (0, 1) (by rw [hcv]; simp) (3, 4)
      (by rw [hw]; simp) (by rw [hcv]; decide)

/-- Claim C6: range-gated insufficiency.  Whenever fewer than 3 anchors lie
within range, the selection reports exactly the number of qualifying anchors
(the InsufficientAnchorsError payload; the GUI surfaces it as a degraded,
non-green tier and never dies), no usable triple is emitted, and for
distances [12, 15, 20] with R = 10 the reported count is 0 with no circles
drawn. -/
theorem range_gated_insufficiency (d : List ℚ) (R : ℚ)
    (h : (withinRange d R).length < 3) :
    qualifyingCount d R = (withinRange d R).length ∧
    qualifyingCount d R < 3 ∧
    circleColor (qualifyingCount d R) ≠ some ("green") ∧
    (closest_valid d R).length < 3 ∧
    qualifyingCount [12, 15, 20] 10 = 0 ∧
    circleColor (qualifyingCount [12, 15, 20] 10) = none := by
  have hq : qualifyingCount d R = min 3 (withinRange d R).length := by
    simp [qualifyingCount, closest_valid, List.length_take]
  have hq2 : qualifyingCount d R = (closest_valid d R).length := rfl
  have h1 : qualifyingCount d R = (withinRange d R).length := by omega
  have h2 : qualifyingCount d R < 3 := by omega
  have hc0 : qualifyingCount [12, 15, 20] 10 = 0 := by
    have hw : withinRange [12, 15, 20] 10 = [] := by decide
    simp [qualifyingCount, closest_valid, hw]
  refine ⟨h1, h2, ?_, by omega, hc0, by rw [hc0]; rfl⟩
  have hcases : qualifyingCount d R = 0 ∨ qualifyingCount d R = 1 ∨
      qualifyingCount d R = 2 := by omega
  rcases hcases with hc | hc | hc <;> rw [hc] <;> simp [circleColor]

/-- Witness for C6: the spec scenario distances [12, 15, 20] with R = 10
report zero qualifying anchors and the empty tier. -/
theorem range_gated_insufficiency_witness :
    qualifyingCount [12, 15, 20] 10 = 0 ∧
    circleColor (qualifyingCount [12, 15, 20] 10) = none := by
  have h := range_gated_insufficiency [12, 15, 20] 10 (by decide)
  exact ⟨h.2.2.2.2.1, h.2.2.2.2.2⟩

/-- Claim C10: the anchor-manager operations preserve the invariant that the
anchor and distance lists have equal length between 3 and 10, starting from
the initial 3-anchor state; add_anchor refuses an 11th anchor, remove_anchor
refuses to drop below 3, dragging never changes the lengths, and every
reachable state satisfies the invariant. -/
theorem anchor_manager_invariant :
    AnchorInv initState ∧
    (∀ (x y : ℚ) (s : AnchorState), AnchorInv s → AnchorInv (add_anchor x y s)) ∧
    (∀ s : AnchorState, AnchorInv s → AnchorInv (remove_anchor s)) ∧
    (∀ (sel : Option Nat) (x y : ℚ) (s : AnchorState), AnchorInv s →
      AnchorInv (on_motion sel x y s)) ∧
    (∀ (x y : ℚ) (s : AnchorState), s.anchors.length = 10 →
      add_anchor x y s = s) ∧
    (∀ s : AnchorState, s.anchors.length = 3 → remove_anchor s = s) ∧
    (∀ ops : List AnchorOp, AnchorInv (runOps initState ops)) := by
  have hinit : AnchorInv initState := by
    refine ⟨rfl, by decide, by decide⟩
  refine ⟨hinit, ?_, ?_, ?_, ?_, ?_, ?_⟩
  · intro x y s hs; exact add_anchor_inv x y s hs
  · intro s hs; exact remove_anchor_inv s hs
  · intro sel x y s hs; exact on_motion_inv sel x y s hs
  · intro x y s h10
    simp [add_anchor, h10]
  · intro s h3
    simp [remove_anchor, h3]
  · intro ops; exact runOps_inv ops initState hinit

/-- Witness for C10: adding an anchor to the initial state keeps the
invariant, and removing from the 3-anchor initial state is refused. -/
theorem anchor_manager_invariant_witness :
    AnchorInv (add_anchor 1 2 initState) ∧ remove_anchor initState = initState := by
  have h := anchor_manager_invariant
  exact ⟨h.2.1 1 2 initState h.1, h.2.2.2.2.2.1 initState (by rfl)⟩

end UWB
